import Mathlib

/-!
Verification of the SkinSeoul automated onsite merchandising scoring engine
(`src/models/scoring_model.py`, class `ProductScorer`) against its
natural-language specification.

The pandas program is shallowly embedded:
* a cell (`Val`) is a rational number, a string, or a missing value (NaN/None);
* a column (`Series`) is a list of cells together with a flag recording
  whether the pandas dtype of the column is numeric (`is_numeric_dtype`);
* a dataframe (`DF`) is an association list from column names to columns,
  in pandas column order.

Floating-point arithmetic is modelled over `ℚ`; the claims under study are
about branch structure, filtering, ordering, lengths and column bookkeeping,
none of which depend on rounding.
-/

namespace SkinSeoul

/-- A single cell of a pandas column: a numeric value, a string, or a
missing value (`NaN` / `None`). -/
inductive Val where
  | num (q : ℚ)
  | str (s : String)
  | na
deriving DecidableEq

/-- A pandas column: the list of cells plus whether the column's dtype is
numeric (`pd.api.types.is_numeric_dtype`).  In a faithfully-built input a
column with `numericDtype = true` holds only `num`/`na` cells. -/
structure Series where
  numericDtype : Bool
  vals : List Val
deriving DecidableEq

/-- A pandas `DataFrame`: association list from column name to column, in
pandas column order. -/
abbrev DF := List (String × Series)

namespace DF

/-- Column lookup (`df[c]` / `c in df.columns`). -/
def getCol : DF → String → Option Series
  | [], _ => none
  | p :: ps, c => if p.1 = c then some p.2 else getCol ps c

/-- `c in df.columns`. -/
def hasCol (df : DF) (c : String) : Bool :=
  (df.getCol c).isSome

/-- Column assignment `df[c] = s`: replaces the column in place if the name
exists, otherwise appends it at the end (pandas semantics). -/
def setCol : DF → String → Series → DF
  | [], c, s => [(c, s)]
  | p :: ps, c, s => if p.1 = c then (c, s) :: ps else p :: setCol ps c s

/-- Number of rows (`len(df)`): the length of the first column; all columns
of a well-formed frame have the same length. -/
def nrows (df : DF) : ℕ :=
  match df with
  | [] => 0
  | p :: _ => p.2.vals.length

/-- The column names, in order (`df.columns`). -/
def colNames (df : DF) : List String := df.map (·.1)

/-- `df.empty`: true when the frame has no rows or no columns. -/
def isEmpty (df : DF) : Bool := df.length == 0 || df.nrows == 0

/-- Well-formedness: the frame has exactly `n` rows, every column included. -/
def WF (df : DF) (n : ℕ) : Prop :=
  df.nrows = n ∧ ∀ p ∈ df, (Prod.snd p).vals.length = n

end DF

/-- Keep the entries of `l` whose position holds `true` in the mask
(pandas boolean-mask row selection `df[mask]`). -/
def maskList {α : Type} : List α → List Bool → List α
  | [], _ => []
  | _ :: _, [] => []
  | x :: xs, b :: bs => if b then x :: maskList xs bs else maskList xs bs

/-- Boolean-mask a column. -/
def Series.mask (s : Series) (m : List Bool) : Series :=
  ⟨s.numericDtype, maskList s.vals m⟩

/-- Boolean-mask every column of a frame (`df[mask]`), preserving the
column set and the relative order of surviving rows. -/
def DF.maskRows (df : DF) (m : List Bool) : DF :=
  df.map (fun p => (p.1, p.2.mask m))

/-- Digits to a natural number; `none` when empty or a non-digit occurs. -/
def digitsToNat (l : List Char) : Option ℕ :=
  if l ≠ [] ∧ l.all Char.isDigit then
    some (l.foldl (fun a c => a * 10 + (c.toNat - 48)) 0)
  else none

/-- Parse an unsigned decimal literal (`"12"`, `"12.5"`, `".5"`, `"12."`). -/
def parseUnsigned (cs : List Char) : Option ℚ :=
  let intPart := cs.takeWhile (fun c => c ≠ '.')
  match cs.dropWhile (fun c => c ≠ '.') with
  | [] => (digitsToNat intPart).map (fun n => (n : ℚ))
  | _ :: frac =>
    if intPart = [] ∧ frac = [] then none
    else if intPart.all Char.isDigit ∧ frac.all Char.isDigit ∧ ¬ frac.any (fun c => c = '.') then
      some ((intPart.foldl (fun a c => a * 10 + (c.toNat - 48)) 0 : ℕ)
        + (frac.foldl (fun a c => a * 10 + (c.toNat - 48)) 0 : ℕ) / ((10 : ℚ) ^ frac.length))
    else none

/-- Removal of thousands separators: models `.str.replace(",", "")` on one
cell, character-wise. -/
def stripCommas (s : String) : String :=
  ⟨s.data.filter (fun c => c ≠ ',')⟩

/-- Leading/trailing whitespace removal (the stripping `pd.to_numeric`
applies to a string cell), character-wise. -/
def trimChars (cs : List Char) : List Char :=
  ((cs.dropWhile Char.isWhitespace).reverse.dropWhile Char.isWhitespace).reverse

/-- Model of `pd.to_numeric(x, errors="coerce")` on a single string, for the
decimal literals that occur in the data under study: optional sign, digits,
optional fractional part; anything else coerces to NaN (`none`). -/
def parseRat (s : String) : Option ℚ :=
  match trimChars s.data with
  | '-' :: rest => (parseUnsigned rest).map (fun q => -q)
  | '+' :: rest => parseUnsigned rest
  | cs => parseUnsigned cs

/-- One cell through `series.astype(str).str.replace(",", "") |> pd.to_numeric
(errors="coerce")`: a numeric cell round-trips to itself, a missing cell
coerces to NaN, a string cell is parsed after removing thousands commas. -/
def valToNum? (v : Val) : Option ℚ :=
  match v with
  | .num q => some q
  | .na => none
  | .str s => parseRat (stripCommas s)

/-- `ProductScorer._to_numeric_robust(series, default_on_error)`: a column
of numeric dtype just has its NaNs filled with the default; otherwise every
cell is string-converted, comma-stripped, parsed, and parse failures are
filled with the default.  Always returns a numeric list of the same length. -/
def toNumericRobust (s : Series) (d : ℚ) : List ℚ :=
  if s.numericDtype then
    s.vals.map (fun v => match v with | .num q => q | _ => d)
  else
    s.vals.map (fun v => (valToNum? v).getD d)

/-- The weights configuration handed to `ProductScorer.__init__`
(`scoring_weights`, `brand_tier_weights`, `filters`, `top_n_products`);
dictionaries are modelled as association lists in insertion order, the two
optional filter thresholds as `Option` (`dict.get` returning `None`). -/
structure WeightsConfig where
  scoring_weights : List (String × ℚ)
  brand_tier_weights : List (String × ℚ)
  min_stock : Option ℚ
  max_inventory_days : Option ℚ
  top_n_products : ℤ

namespace ProductScorer

open DF

/-- The `column_map` dict of `preprocess_data`, in source order. -/
def columnMap : List (String × String) :=
  [("Price (USD)", "price_usd"), ("COGS (USD)", "cogs_usd"),
   ("Units in Stock", "units_in_stock"), ("Days of Inventory", "days_of_inventory"),
   ("Views Last Month", "views_last_month"), ("Volume Sold Last Month", "volume_sold_last_month"),
   ("Brand Tier", "brand_tier"), ("Product Name", "Product Name"), ("Brand", "Brand")]

/-- The `numeric_internal_cols` list of `preprocess_data`. -/
def numericInternalCols : List String :=
  ["price_usd", "cogs_usd", "units_in_stock", "days_of_inventory",
   "views_last_month", "volume_sold_last_month"]

/-- One iteration of the `preprocess_data` loop over `column_map`: if the raw
CSV column exists, numeric internal columns get its robust numeric conversion
and other internal columns a copy (no-op when the names coincide); if it is
missing, numeric internal columns default to scalar `0` (a numeric column of
zeros) and the rest to `None` (an object column of missing values). -/
def preprocessStep (df : DF) (p : String × String) : DF :=
  match df.getCol p.1 with
  | some s =>
    if p.2 ∈ numericInternalCols then
      df.setCol p.2 ⟨true, (toNumericRobust s 0).map Val.num⟩
    else if p.2 ≠ p.1 then df.setCol p.2 s
    else df
  | none =>
    if p.2 ∈ numericInternalCols then
      df.setCol p.2 ⟨true, List.replicate df.nrows (Val.num 0)⟩
    else
      df.setCol p.2 ⟨false, List.replicate df.nrows Val.na⟩

/-- `ProductScorer.preprocess_data` (the `df.copy()` is pure-value semantics). -/
def preprocess_data (df : DF) : DF :=
  columnMap.foldl preprocessStep df

/-- The `min_stock` block of `apply_filters`: when the threshold is
configured and the column exists, keep the rows whose robustly-converted
`units_in_stock` is `>= min_stock`. -/
def minStockStage (cfg : WeightsConfig) (df : DF) : DF :=
  match cfg.min_stock with
  | none => df
  | some ms =>
    match df.getCol "units_in_stock" with
    | none => df
    | some s => df.maskRows ((toNumericRobust s 0).map (fun q => decide (ms ≤ q)))

/-- The membership test of the `days <= max_days` mask of `apply_filters`,
fused with `_to_numeric_robust(col, np.inf)`: a cell that converts to a
number passes iff it is `<= max_days`; a cell filled with the `np.inf`
default (missing, or a parse failure) never passes. -/
def daysLeMask (s : Series) (maxDays : ℚ) : List Bool :=
  if s.numericDtype then
    s.vals.map (fun v => match v with | .num q => decide (q ≤ maxDays) | _ => false)
  else
    s.vals.map (fun v => match valToNum? v with | some q => decide (q ≤ maxDays) | none => false)

/-- The `max_inventory_days` block of `apply_filters`. -/
def maxDaysStage (cfg : WeightsConfig) (df : DF) : DF :=
  match cfg.max_inventory_days with
  | none => df
  | some md =>
    match df.getCol "days_of_inventory" with
    | none => df
    | some s => df.maskRows (daysLeMask s md)

/-- `ProductScorer.apply_filters`: the `min_stock` block, then the
`max_inventory_days` block (`reset_index(drop=True)` is implicit: the model
keeps no index). -/
def apply_filters (cfg : WeightsConfig) (df : DF) : DF :=
  maxDaysStage cfg (minStockStage cfg df)

/-- `brand_tier` cell through `.map(self.brand_tier_map).fillna(0)`: a
string tier is looked up in the tier-weight dict with default `0`; numeric
or missing cells miss the (string-keyed) dict and also yield `0`. -/
def brandTierOf (cfg : WeightsConfig) (v : Val) : ℚ :=
  match v with
  | .str s => (cfg.brand_tier_weights.lookup s).getD 0
  | _ => 0

/-- Empty float column, modelling `pd.Series(dtype="float64")` used as the
`df.get` default. -/
def emptyFloatCol : Series := ⟨true, []⟩

/-- One cell of `np.where(price > 0, (price - cogs) / price, 0)`. -/
def profitMarginCell (p c : ℚ) : ℚ :=
  if 0 < p then (p - c) / p else 0

/-- `ProductScorer.calculate_features`: derives `profit_margin` (piecewise
`np.where(price > 0, (price - cogs) / price, 0)` then `fillna(0)`, which is
the identity here since both operands are already robustly numeric),
`sales_velocity`, `engagement`, and `brand_tier_weight`. -/
def calculate_features (cfg : WeightsConfig) (df : DF) : DF :=
  let price := toNumericRobust ((df.getCol "price_usd").getD emptyFloatCol) 0
  let cogs := toNumericRobust ((df.getCol "cogs_usd").getD emptyFloatCol) 0
  let pm := List.zipWith profitMarginCell price cogs
  let df1 := df.setCol "profit_margin" ⟨true, pm.map Val.num⟩
  let df2 := df1.setCol "sales_velocity"
    ⟨true, (toNumericRobust ((df1.getCol "volume_sold_last_month").getD emptyFloatCol) 0).map Val.num⟩
  let df3 := df2.setCol "engagement"
    ⟨true, (toNumericRobust ((df2.getCol "views_last_month").getD emptyFloatCol) 0).map Val.num⟩
  match df3.getCol "brand_tier" with
  | some s =>
    if cfg.brand_tier_weights ≠ [] then
      df3.setCol "brand_tier_weight" ⟨true, s.vals.map (fun v => Val.num (brandTierOf cfg v))⟩
    else df3.setCol "brand_tier_weight" ⟨true, List.replicate df3.nrows (Val.num 0)⟩
  | none => df3.setCol "brand_tier_weight" ⟨true, List.replicate df3.nrows (Val.num 0)⟩

/-- The `features_to_normalize` list of `normalize_features`. -/
def featuresToNormalize : List String :=
  ["sales_velocity", "profit_margin", "engagement", "brand_tier_weight"]

/-- Minimum of a column's values (`series.min()`); call sites guard against
the empty column. -/
def listMin (l : List ℚ) : ℚ :=
  match l with
  | [] => 0
  | x :: xs => xs.foldl min x

/-- Maximum of a column's values (`series.max()`). -/
def listMax (l : List ℚ) : ℚ :=
  match l with
  | [] => 0
  | x :: xs => xs.foldl max x

/-- One iteration of the `normalize_features` loop: when the feature column
exists and is non-empty, write `norm_<feature>` according to the three-way
min-max rule (`max > min` → scaled values; `max == min != 0` → scalar `1.0`;
otherwise scalar `0.0`); when it is missing or empty, write scalar `0.0`. -/
def normStep (df : DF) (feature : String) : DF :=
  match df.getCol feature with
  | some s =>
    if s.vals = [] then
      df.setCol ("norm_" ++ feature) ⟨true, List.replicate df.nrows (Val.num 0)⟩
    else
      let qs := toNumericRobust s 0
      let mn := listMin qs
      let mx := listMax qs
      if mn < mx then
        df.setCol ("norm_" ++ feature) ⟨true, qs.map (fun q => Val.num ((q - mn) / (mx - mn)))⟩
      else if mx = mn ∧ mx ≠ 0 then
        df.setCol ("norm_" ++ feature) ⟨true, List.replicate df.nrows (Val.num 1)⟩
      else
        df.setCol ("norm_" ++ feature) ⟨true, List.replicate df.nrows (Val.num 0)⟩
  | none => df.setCol ("norm_" ++ feature) ⟨true, List.replicate df.nrows (Val.num 0)⟩

/-- `ProductScorer.normalize_features`. -/
def normalize_features (df : DF) : DF :=
  featuresToNormalize.foldl normStep df

/-- The normalized column targeted by a `scoring_weights` key: `norm_` plus
the feature name, with the special rename `brand_tier` → `brand_tier_weight`. -/
def scoreTargetCol (component : String) : String :=
  "norm_" ++ (if component = "brand_tier" then "brand_tier_weight" else component)

/-- One iteration of the `calculate_scores` loop: when the targeted
normalized column exists, add `weight * values` into the `score` column;
when it does not, skip the weight (log-and-continue). -/
def scoreStep (d : DF) (p : String × ℚ) : DF :=
  match d.getCol (scoreTargetCol p.1) with
  | some s =>
    d.setCol "score"
      ⟨true, (List.zipWith (fun a q => a + p.2 * q)
        (toNumericRobust ((d.getCol "score").getD emptyFloatCol) 0)
        (toNumericRobust s 0)).map Val.num⟩
  | none => d

/-- `ProductScorer.calculate_scores`: initialise `score` to scalar `0.0`,
then accumulate the configured weighted normalized features. -/
def calculate_scores (cfg : WeightsConfig) (df : DF) : DF :=
  cfg.scoring_weights.foldl scoreStep
    (df.setCol "score" ⟨true, List.replicate df.nrows (Val.num 0)⟩)

/-- Stable insertion into a descending-sorted list of (score, original row
index) pairs: the new pair goes before the first strictly smaller score, so
equal scores keep their relative order. -/
def insertDesc (x : ℚ × ℕ) : List (ℚ × ℕ) → List (ℚ × ℕ)
  | [] => [x]
  | y :: ys => if x.1 < y.1 then y :: insertDesc x ys else x :: y :: ys

/-- Stable descending insertion sort on (score, original row index) pairs. -/
def sortDesc : List (ℚ × ℕ) → List (ℚ × ℕ)
  | [] => []
  | x :: xs => insertDesc x (sortDesc xs)

/-- The row permutation of `df.sort_values("score", ascending=False)`: row
indices ordered by descending score.  pandas' default sort kind is
`quicksort`, whose order among tied scores is implementation-defined; the
model uses a stable order for ties, and no theorem below about this
definition depends on the tie order. -/
def argsortDesc (qs : List ℚ) : List ℕ :=
  (sortDesc (qs.zip (List.range qs.length))).map (·.2)

/-- `head(top_n)` on a column: pandas `head` keeps the first `n` rows when
`n >= 0` and all but the last `|n|` rows when `n < 0`. -/
def headInt {α : Type} (n : ℤ) (l : List α) : List α :=
  if 0 ≤ n then l.take n.toNat else l.take (l.length - (-n).toNat)

/-- `ranked.head(top_n)` on a whole frame. -/
def headDF (df : DF) (n : ℤ) : DF :=
  df.map (fun p => (p.1, ⟨p.2.numericDtype, headInt n p.2.vals⟩))

/-- Reorder every column of a frame by a row permutation
(`sort_values` + `reset_index(drop=True)`). -/
def permuteRows (df : DF) (perm : List ℕ) : DF :=
  df.map (fun p => (p.1, ⟨p.2.numericDtype, perm.map (fun i => p.2.vals.getD i Val.na)⟩))

/-- `ProductScorer.rank_products`: coerce `score` to numeric in place, sort
descending by score, assign `rank = 1..len` over the full sorted frame, then
truncate with `head(top_n)`. -/
def rank_products (df : DF) (top_n : ℤ) : DF :=
  let scores := toNumericRobust ((df.getCol "score").getD emptyFloatCol) 0
  let df1 := df.setCol "score" ⟨true, scores.map Val.num⟩
  let perm := argsortDesc scores
  let sorted := permuteRows df1 perm
  let ranked := sorted.setCol "rank"
    ⟨true, (List.range perm.length).map (fun i : ℕ => Val.num ((i : ℚ) + 1))⟩
  headDF ranked top_n

/-- The `out_cols` list of `process`. -/
def outCols : List String := ["Product Name", "Brand", "Price (USD)", "score", "rank"]

/-- `pd.DataFrame(columns=out_cols)`: the five output columns with no rows. -/
def emptyOutput : DF := outCols.map (fun c => (c, ⟨false, []⟩))

/-- `ProductScorer.process`: empty-input short-circuit, then preprocess →
features → filters, empty-after-filter short-circuit, then normalize →
score → rank, and projection onto the five output columns (each pulled by
`ranked.get(...)`, with `Price (USD)` re-exposed from internal `price_usd`). -/
def process (cfg : WeightsConfig) (df : DF) (top_n : Option ℤ) : DF :=
  let effective := top_n.getD cfg.top_n_products
  if df.isEmpty then emptyOutput
  else
    let x := apply_filters cfg (calculate_features cfg (preprocess_data df))
    if x.isEmpty then emptyOutput
    else
      let ranked := rank_products (calculate_scores cfg (normalize_features x)) effective
      [("Product Name", (ranked.getCol "Product Name").getD ⟨false, []⟩),
       ("Brand", (ranked.getCol "Brand").getD ⟨false, []⟩),
       ("Price (USD)", (ranked.getCol "price_usd").getD ⟨false, []⟩),
       ("score", (ranked.getCol "score").getD ⟨false, []⟩),
       ("rank", (ranked.getCol "rank").getD ⟨false, []⟩)]

/-- The number of rows of the frame surviving the in-`process` filter stage
(`apply_filters(calculate_features(preprocess_data(df)))`). -/
def survivors (cfg : WeightsConfig) (df : DF) : ℕ :=
  DF.nrows (apply_filters cfg (calculate_features cfg (preprocess_data df)))

end ProductScorer

/-- Sequential composition of two boolean row masks: the second mask is
consumed only on rows the first mask kept. -/
def composeMask : List Bool → List Bool → List Bool
  | [], _ => []
  | false :: bs, m2 => false :: composeMask bs m2
  | true :: bs, [] => false :: composeMask bs []
  | true :: bs, b :: m2 => b :: composeMask bs m2

/-- The number of rows pandas `head(t)` keeps out of `k`: the first `t` for
`t ≥ 0`, everything but the last `|t|` for `t < 0`. -/
def headLen (t : ℤ) (k : ℕ) : ℕ :=
  if 0 ≤ t then min t.toNat k else k - (-t).toNat

/-- The specification's three-way min-max normalization rule for one value:
`max > min` → `(value - min) / (max - min)`; `max == min ≠ 0` → `1.0`;
`max == min == 0` → `0.0`. -/
def minMaxRule (mn mx q : ℚ) : ℚ :=
  if mn < mx then (q - mn) / (mx - mn) else if mx ≠ 0 then 1 else 0

section Lemmas

open DF ProductScorer

theorem getCol_setCol_self (df : DF) (c : String) (s : Series) :
    (df.setCol c s).getCol c = some s := by
  induction df with
  | nil => simp [setCol, getCol]
  | cons p ps ih =>
    by_cases h : p.1 = c
    · simp [setCol, getCol, h]
    · simp [setCol, getCol, h, ih]

theorem getCol_setCol_ne (df : DF) {c c' : String} (s : Series) (h : c' ≠ c) :
    (df.setCol c s).getCol c' = df.getCol c' := by
  induction df with
  | nil =>
    have hcc : ¬ ((c : String) = c') := fun hh => h hh.symm
    simp [setCol, getCol, hcc]
  | cons p ps ih =>
    by_cases hp : p.1 = c
    · have hpc : ¬ (p.1 = c') := by rw [hp]; exact fun hh => h hh.symm
      have hcc : ¬ ((c : String) = c') := fun hh => h hh.symm
      simp only [setCol, if_pos hp, getCol, hcc, if_false, hpc, if_neg]
    · by_cases hp' : p.1 = c'
      · simp only [setCol, if_neg hp, getCol, if_pos hp']
      · simp only [setCol, if_neg hp, getCol, if_neg hp', ih]

theorem mem_of_getCol {df : DF} {c : String} {s : Series} (h : df.getCol c = some s) :
    (c, s) ∈ df := by
  induction df with
  | nil => simp [getCol] at h
  | cons q qs ih =>
    by_cases hq : q.1 = c
    · rcases q with ⟨a, b⟩
      simp only [getCol, if_pos hq] at h
      have hv : b = s := by injection h
      rw [← hq, ← hv]
      exact List.mem_cons_self _ _
    · simp only [getCol, if_neg hq] at h
      exact List.mem_cons_of_mem q (ih h)

theorem mem_setCol {df : DF} {c : String} {s : Series} {p : String × Series}
    (h : p ∈ df.setCol c s) : p ∈ df ∨ p = (c, s) := by
  induction df with
  | nil =>
    right
    simpa [setCol] using h
  | cons q qs ih =>
    by_cases hq : q.1 = c
    · simp only [setCol, if_pos hq] at h
      rcases List.mem_cons.mp h with h1 | h1
      · right; exact h1
      · left; exact List.mem_cons_of_mem q h1
    · simp only [setCol, if_neg hq] at h
      rcases List.mem_cons.mp h with h1 | h1
      · left; rw [h1]; exact List.mem_cons_self q qs
      · rcases ih h1 with h2 | h2
        · left; exact List.mem_cons_of_mem q h2
        · right; exact h2

theorem nrows_setCol_of_WF {df : DF} {n : ℕ} (hwf : df.WF n) {c : String} {s : Series}
    (hs : s.vals.length = n) : (df.setCol c s).nrows = n := by
  rcases df with _ | ⟨p, ps⟩
  · simpa [setCol, nrows] using hs
  · by_cases hp : p.1 = c
    · simpa [setCol, nrows, hp] using hs
    · simpa [setCol, nrows, hp] using hwf.1

theorem WF_setCol {df : DF} {n : ℕ} (hwf : df.WF n) {c : String} {s : Series}
    (hs : s.vals.length = n) : (df.setCol c s).WF n := by
  refine ⟨nrows_setCol_of_WF hwf hs, fun p hp => ?_⟩
  rcases mem_setCol hp with h | h
  · exact hwf.2 p h
  · rw [h]; exact hs

theorem getCol_length {df : DF} {n : ℕ} (hwf : df.WF n) {c : String} {s : Series}
    (h : df.getCol c = some s) : s.vals.length = n :=
  hwf.2 (c, s) (mem_of_getCol h)

theorem maskList_sublist {α : Type} (l : List α) (m : List Bool) :
    (maskList l m).Sublist l := by
  induction l generalizing m with
  | nil => simp [maskList]
  | cons x xs ih =>
    rcases m with _ | ⟨b, bs⟩
    · simp [maskList]
    · rcases b with _ | _
      · exact (ih bs).cons x
      · simpa [maskList] using (ih bs).cons₂ x

theorem length_maskList {α : Type} {l : List α} {m : List Bool}
    (h : l.length = m.length) : (maskList l m).length = m.count true := by
  induction l generalizing m with
  | nil =>
    have : m = [] := by
      cases m with
      | nil => rfl
      | cons b bs => simp at h
    simp [this, maskList]
  | cons x xs ih =>
    rcases m with _ | ⟨b, bs⟩
    · simp at h
    · have h' : xs.length = bs.length := by simpa using h
      rcases b with _ | _
      · simpa [maskList, List.count_cons] using ih h'
      · simpa [maskList, List.count_cons] using ih h'

theorem maskList_replicate_true {α : Type} (l : List α) :
    maskList l (List.replicate l.length true) = l := by
  induction l with
  | nil => simp [maskList]
  | cons x xs ih => simpa [maskList, List.replicate_succ] using ih

theorem maskList_nil_mask {α : Type} (l : List α) : maskList l [] = [] := by
  cases l <;> simp [maskList]

theorem maskList_maskList {α : Type} (l : List α) (m1 m2 : List Bool) :
    maskList (maskList l m1) m2 = maskList l (composeMask m1 m2) := by
  induction l generalizing m1 m2 with
  | nil => simp [maskList]
  | cons x xs ih =>
    rcases m1 with _ | ⟨b1, bs1⟩
    · simp [maskList, composeMask]
    · rcases b1 with _ | _
      · simp [maskList, composeMask, ih]
      · rcases m2 with _ | ⟨b2, bs2⟩
        · simp [maskList, composeMask, ← ih, maskList_nil_mask]
        · rcases b2 with _ | _
          · simp [maskList, composeMask, ih]
          · simp [maskList, composeMask, ih]

theorem getCol_maskRows (df : DF) (m : List Bool) (c : String) :
    (df.maskRows m).getCol c = (df.getCol c).map (fun s => s.mask m) := by
  induction df with
  | nil => simp [maskRows, getCol]
  | cons p ps ih =>
    by_cases hp : p.1 = c
    · simp [maskRows, getCol, hp]
    · simp only [maskRows, List.map_cons, getCol, if_neg hp]
      exact ih

theorem WF_maskRows {df : DF} {n : ℕ} (hwf : df.WF n) {m : List Bool}
    (hm : m.length = n) : (df.maskRows m).WF (m.count true) := by
  constructor
  · rcases df with _ | ⟨p, ps⟩
    · have : n = 0 := by simpa [nrows] using hwf.1.symm
      subst this
      have : m = [] := List.eq_nil_of_length_eq_zero hm
      simp [this, maskRows, nrows]
    · have hp : p.2.vals.length = n := hwf.2 p (List.mem_cons_self _ _)
      simp only [maskRows, List.map_cons, nrows, Series.mask]
      exact length_maskList (by rw [hp, hm])
  · intro q hq
    simp only [maskRows, List.mem_map] at hq
    rcases hq with ⟨p, hp, rfl⟩
    have : p.2.vals.length = n := hwf.2 p hp
    exact length_maskList (by rw [this, hm])

theorem maskRows_replicate_true {df : DF} {n : ℕ} (hwf : df.WF n) :
    df.maskRows (List.replicate n true) = df := by
  rcases hwf with ⟨-, h2⟩
  induction df with
  | nil => simp [maskRows]
  | cons p ps ih =>
    have hp : p.2.vals.length = n := h2 p (List.mem_cons_self _ _)
    have : p.2.mask (List.replicate n true) = p.2 := by
      rcases p with ⟨c, s⟩
      simp only [Series.mask]
      rw [← hp]
      exact congrArg _ (maskList_replicate_true _)
    simp only [maskRows, List.map_cons, this]
    have := ih (fun q hq => h2 q (List.mem_cons_of_mem _ hq))
    simpa [maskRows] using this

theorem maskRows_maskRows (df : DF) (m1 m2 : List Bool) :
    (df.maskRows m1).maskRows m2 = df.maskRows (composeMask m1 m2) := by
  simp only [maskRows, List.map_map]
  refine List.map_congr_left (fun p _ => ?_)
  simp [Series.mask, Function.comp, maskList_maskList]

theorem length_toNumericRobust (s : Series) (d : ℚ) :
    (toNumericRobust s d).length = s.vals.length := by
  by_cases h : s.numericDtype <;> simp [toNumericRobust, h]

theorem colNames_setCol_of_hasCol {df : DF} {c : String} (h : df.hasCol c) (s : Series) :
    (df.setCol c s).colNames = df.colNames := by
  induction df with
  | nil => simp [hasCol, getCol] at h
  | cons p ps ih =>
    by_cases hp : p.1 = c
    · simp [setCol, colNames, hp]
    · have h' : DF.hasCol ps c := by simpa [hasCol, getCol, hp] using h
      simpa [setCol, colNames, hp] using ih h'

theorem colNames_maskRows (df : DF) (m : List Bool) :
    (df.maskRows m).colNames = df.colNames := by
  simp [maskRows, colNames, List.map_map, Function.comp]

theorem hasCol_setCol {df : DF} {c' : String} (c : String) (s : Series)
    (h : df.hasCol c' = true) : (df.setCol c s).hasCol c' = true := by
  by_cases hc : c' = c
  · subst hc
    simp [hasCol, getCol_setCol_self]
  · rw [hasCol, getCol_setCol_ne df s hc]
    exact h

theorem hasCol_setCol_self (df : DF) (c : String) (s : Series) :
    (df.setCol c s).hasCol c = true := by
  simp [hasCol, getCol_setCol_self]

theorem getCol_permuteRows (df : DF) (perm : List ℕ) (c : String) :
    (permuteRows df perm).getCol c
      = (df.getCol c).map
          (fun s => ⟨s.numericDtype, perm.map (fun i => s.vals.getD i Val.na)⟩) := by
  induction df with
  | nil => simp [permuteRows, getCol]
  | cons p ps ih =>
    by_cases hp : p.1 = c
    · simp [permuteRows, getCol, hp]
    · simp only [permuteRows, List.map_cons, getCol, if_neg hp]
      exact ih

theorem getCol_headDF (df : DF) (t : ℤ) (c : String) :
    (headDF df t).getCol c
      = (df.getCol c).map (fun s => ⟨s.numericDtype, headInt t s.vals⟩) := by
  induction df with
  | nil => simp [headDF, getCol]
  | cons p ps ih =>
    by_cases hp : p.1 = c
    · simp [headDF, getCol, hp]
    · simp only [headDF, List.map_cons, getCol, if_neg hp]
      exact ih

theorem hasCol_maskRows {df : DF} {c : String} (m : List Bool)
    (h : df.hasCol c = true) : (df.maskRows m).hasCol c = true := by
  simp only [hasCol, getCol_maskRows]
  simp only [hasCol] at h
  rcases hs : df.getCol c with _ | s
  · rw [hs] at h; simp at h
  · simp

theorem headLen_zero (t : ℤ) : headLen t 0 = 0 := by
  by_cases h : 0 ≤ t <;> simp [headLen, h]

theorem length_headInt {α : Type} (t : ℤ) (l : List α) :
    (headInt t l).length = headLen t l.length := by
  by_cases h : 0 ≤ t
  · simp [headInt, headLen, h]
  · simp [headInt, headLen, h, List.length_take, Nat.min_eq_left, Nat.sub_le]

theorem WF_permuteRows {df : DF} (hne : df ≠ []) (perm : List ℕ) :
    (permuteRows df perm).WF perm.length := by
  constructor
  · rcases df with _ | ⟨p, ps⟩
    · exact absurd rfl hne
    · simp [permuteRows, nrows]
  · intro q hq
    simp only [permuteRows, List.mem_map] at hq
    rcases hq with ⟨p, _, rfl⟩
    simp

theorem WF_headDF {df : DF} {n : ℕ} (hwf : df.WF n) (t : ℤ) :
    (headDF df t).WF (headLen t n) := by
  constructor
  · rcases df with _ | ⟨p, ps⟩
    · have : n = 0 := by simpa [nrows] using hwf.1.symm
      simp [headDF, nrows, this, headLen_zero]
    · have hp : p.2.vals.length = n := hwf.2 p (List.mem_cons_self _ _)
      simp [headDF, nrows, length_headInt, hp]
  · intro q hq
    simp only [headDF, List.mem_map] at hq
    rcases hq with ⟨p, hp, rfl⟩
    have : p.2.vals.length = n := hwf.2 p hp
    simp [length_headInt, this]

theorem toNumericRobust_num (l : List ℚ) (d : ℚ) :
    toNumericRobust ⟨true, l.map Val.num⟩ d = l := by
  induction l with
  | nil => simp [toNumericRobust]
  | cons x xs ih => simpa [toNumericRobust] using ih

theorem getD_zipWith (f : ℚ → ℚ → ℚ) {l1 l2 : List ℚ} {i : ℕ}
    (h1 : i < l1.length) (h2 : i < l2.length) :
    (List.zipWith f l1 l2).getD i 0 = f (l1.getD i 0) (l2.getD i 0) := by
  have e1 : l1[i]? = some l1[i] := List.getElem?_eq_getElem h1
  have e2 : l2[i]? = some l2[i] := List.getElem?_eq_getElem h2
  simp [List.getD_eq_getElem?_getD, List.getElem?_zipWith', e1, e2]

theorem foldl_min_le (x : ℚ) (xs : List ℚ) : xs.foldl min x ≤ x := by
  induction xs generalizing x with
  | nil => exact le_refl x
  | cons y ys ih => exact le_trans (ih (min x y)) (min_le_left x y)

theorem le_foldl_max (x : ℚ) (xs : List ℚ) : x ≤ xs.foldl max x := by
  induction xs generalizing x with
  | nil => exact le_refl x
  | cons y ys ih => exact le_trans (le_max_left x y) (ih (max x y))

theorem listMin_le_listMax {l : List ℚ} (h : l ≠ []) : listMin l ≤ listMax l := by
  rcases l with _ | ⟨x, xs⟩
  · exact absurd rfl h
  · exact le_trans (foldl_min_le x xs) (le_foldl_max x xs)

theorem norm_prefix_ne_score (y : String) : ("norm_" ++ y) ≠ "score" := by
  intro h
  have hd : ("norm_" ++ y).data = "score".data := congrArg String.data h
  rw [String.data_append] at hd
  have h5 := congrArg (fun l => List.take 5 l) hd
  simp only [] at h5
  rw [show (5 : ℕ) = "norm_".data.length from rfl, List.take_left] at h5
  exact absurd h5 (by decide)

theorem scoreTargetCol_ne_score (component : String) : scoreTargetCol component ≠ "score" :=
  norm_prefix_ne_score _

theorem mem_zip_range' {l : List ℚ} : ∀ {k : ℕ} {p : ℚ × ℕ},
    p ∈ l.zip (List.range' k l.length) → k ≤ p.2 ∧ l.get? (p.2 - k) = some p.1 := by
  induction l with
  | nil => intro k p h; simp at h
  | cons x xs ih =>
    intro k p h
    rw [show (x :: xs).length = xs.length + 1 from rfl, List.range'_succ] at h
    rcases List.mem_cons.mp h with h1 | h1
    · rw [h1]
      exact ⟨le_refl k, by simp⟩
    · rcases ih h1 with ⟨hk, hget⟩
      refine ⟨le_trans (Nat.le_succ k) hk, ?_⟩
      have hs : p.2 - k = (p.2 - (k + 1)) + 1 := by omega
      rw [hs]
      simpa using hget

theorem zip_range_get? {l : List ℚ} {p : ℚ × ℕ} (h : p ∈ l.zip (List.range l.length)) :
    l.get? p.2 = some p.1 := by
  rw [List.range_eq_range'] at h
  simpa using (mem_zip_range' h).2

theorem length_insertDesc (x : ℚ × ℕ) (l : List (ℚ × ℕ)) :
    (insertDesc x l).length = l.length + 1 := by
  induction l with
  | nil => rfl
  | cons y ys ih =>
    by_cases h : x.1 < y.1
    · simp [insertDesc, h, ih]
    · simp [insertDesc, h]

theorem length_sortDesc (l : List (ℚ × ℕ)) : (sortDesc l).length = l.length := by
  induction l with
  | nil => rfl
  | cons x xs ih => simp [sortDesc, length_insertDesc, ih]

theorem mem_insertDesc {x y : ℚ × ℕ} {l : List (ℚ × ℕ)} (h : y ∈ insertDesc x l) :
    y = x ∨ y ∈ l := by
  induction l with
  | nil => simpa [insertDesc] using h
  | cons z zs ih =>
    by_cases hz : x.1 < z.1
    · simp only [insertDesc, if_pos hz] at h
      rcases List.mem_cons.mp h with h1 | h1
      · right; rw [h1]; exact List.mem_cons_self _ _
      · rcases ih h1 with h2 | h2
        · left; exact h2
        · right; exact List.mem_cons_of_mem z h2
    · simp only [insertDesc, if_neg hz] at h
      rcases List.mem_cons.mp h with h1 | h1
      · left; exact h1
      · right; exact h1

theorem mem_sortDesc {y : ℚ × ℕ} {l : List (ℚ × ℕ)} (h : y ∈ sortDesc l) : y ∈ l := by
  induction l with
  | nil => simp [sortDesc] at h
  | cons x xs ih =>
    simp only [sortDesc] at h
    rcases mem_insertDesc h with h1 | h1
    · rw [h1]; exact List.mem_cons_self _ _
    · exact List.mem_cons_of_mem x (ih h1)

theorem head?_insertDesc (x : ℚ × ℕ) (l : List (ℚ × ℕ)) :
    (insertDesc x l).head? = some x ∨ (insertDesc x l).head? = l.head? := by
  rcases l with _ | ⟨y, ys⟩
  · left; rfl
  · by_cases h : x.1 < y.1
    · right; simp [insertDesc, h]
    · left; simp [insertDesc, h]

theorem chain'_insertDesc {x : ℚ × ℕ} {l : List (ℚ × ℕ)}
    (h : List.Chain' (fun a b => b.1 ≤ a.1) l) :
    List.Chain' (fun a b => b.1 ≤ a.1) (insertDesc x l) := by
  induction l with
  | nil => simp [insertDesc]
  | cons y ys ih =>
    by_cases hy : x.1 < y.1
    · simp only [insertDesc, if_pos hy]
      rcases List.chain'_cons'.mp h with ⟨hhead, htail⟩
      refine List.chain'_cons'.mpr ⟨?_, ih htail⟩
      intro b hb
      rcases head?_insertDesc x ys with he | he
      · rw [he] at hb
        have hx : x = b := by injection hb
        rw [← hx]
        exact le_of_lt hy
      · rw [he] at hb
        exact hhead b hb
    · simp only [insertDesc, if_neg hy]
      exact List.chain'_cons'.mpr ⟨fun b hb => by
        have hx : y = b := by injection hb
        rw [← hx]; exact le_of_not_lt hy, h⟩

theorem chain'_sortDesc (l : List (ℚ × ℕ)) :
    List.Chain' (fun a b : ℚ × ℕ => b.1 ≤ a.1) (sortDesc l) := by
  induction l with
  | nil => simp [sortDesc]
  | cons x xs ih => exact chain'_insertDesc ih

theorem hasCol_exists {df : DF} {c : String} (h : df.hasCol c = true) :
    ∃ s, df.getCol c = some s := by
  simpa [hasCol, Option.isSome_iff_exists] using h

theorem getCol_preprocessStep_ne (df : DF) (p : String × String) {c : String} (h : c ≠ p.2) :
    (preprocessStep df p).getCol c = df.getCol c := by
  rcases hg : df.getCol p.1 with _ | s <;> simp only [preprocessStep, hg]
  · by_cases hn : p.2 ∈ numericInternalCols <;>
      simp [hn, getCol_setCol_ne _ _ h]
  · by_cases hn : p.2 ∈ numericInternalCols
    · simp [hn, getCol_setCol_ne _ _ h]
    · by_cases hq : p.2 ≠ p.1 <;> simp [hn, hq, getCol_setCol_ne _ _ h]

theorem hasCol_preprocessStep_mono {df : DF} {c : String} (p : String × String)
    (h : df.hasCol c = true) : (preprocessStep df p).hasCol c = true := by
  rcases hg : df.getCol p.1 with _ | s <;> simp only [preprocessStep, hg]
  · by_cases hn : p.2 ∈ numericInternalCols <;> simp [hn, hasCol_setCol _ _ h]
  · by_cases hn : p.2 ∈ numericInternalCols
    · simp [hn, hasCol_setCol _ _ h]
    · by_cases hq : p.2 ≠ p.1 <;> simp [hn, hq, hasCol_setCol _ _ h, h]

theorem hasCol_preprocessStep_self (df : DF) (p : String × String) :
    (preprocessStep df p).hasCol p.2 = true := by
  rcases hg : df.getCol p.1 with _ | s <;> simp only [preprocessStep, hg]
  · by_cases hn : p.2 ∈ numericInternalCols <;> simp [hn, hasCol_setCol_self]
  · by_cases hn : p.2 ∈ numericInternalCols
    · simp [hn, hasCol_setCol_self]
    · by_cases hq : p.2 ≠ p.1
      · simp [hn, hq, hasCol_setCol_self]
      · have hq' : p.2 = p.1 := not_not.mp (by simpa using hq)
        have hn' : p.1 ∉ numericInternalCols := hq' ▸ hn
        simp [hn', hq, hasCol, hq', hg]

theorem WF_preprocessStep {df : DF} {n : ℕ} (hwf : df.WF n) (p : String × String) :
    (preprocessStep df p).WF n := by
  rcases hg : df.getCol p.1 with _ | s <;> simp only [preprocessStep, hg]
  · by_cases hn : p.2 ∈ numericInternalCols
    · simpa [hn] using WF_setCol hwf (by simp [hwf.1])
    · simpa [hn] using WF_setCol hwf (by simp [hwf.1])
  · have hs : s.vals.length = n := getCol_length hwf hg
    by_cases hn : p.2 ∈ numericInternalCols
    · simpa [hn] using WF_setCol hwf (by simp [length_toNumericRobust, hs])
    · by_cases hq : p.2 ≠ p.1
      · simpa [hn, hq] using WF_setCol hwf hs
      · simpa [hn, hq] using hwf

theorem hasCol_foldl_preprocess : ∀ (l : List (String × String)) (df : DF) (c : String),
    (df.hasCol c = true ∨ c ∈ l.map Prod.snd) →
    (List.foldl preprocessStep df l).hasCol c = true := by
  intro l
  induction l with
  | nil =>
    intro df c h
    rcases h with h | h
    · exact h
    · simp at h
  | cons p ps ih =>
    intro df c h
    rw [List.foldl_cons]
    apply ih
    rcases h with h | h
    · exact Or.inl (hasCol_preprocessStep_mono p h)
    · rw [List.map_cons] at h
      rcases List.mem_cons.mp h with h1 | h1
      · rw [h1]
        exact Or.inl (hasCol_preprocessStep_self df p)
      · exact Or.inr h1

theorem hasCol_preprocess (df : DF) {c : String} (hc : c ∈ columnMap.map Prod.snd) :
    (preprocess_data df).hasCol c = true :=
  hasCol_foldl_preprocess columnMap df c (Or.inr hc)

theorem WF_preprocess {df : DF} {n : ℕ} (hwf : df.WF n) : (preprocess_data df).WF n := by
  unfold preprocess_data
  generalize columnMap = l
  induction l generalizing df with
  | nil => exact hwf
  | cons p ps ih =>
    rw [List.foldl_cons]
    exact ih (WF_preprocessStep hwf p)

theorem getCol_preprocessStep_days {d : DF} {s : Series}
    (h : d.getCol "Days of Inventory" = some s) :
    (preprocessStep d ("Days of Inventory", "days_of_inventory")).getCol "days_of_inventory"
      = some ⟨true, (toNumericRobust s 0).map Val.num⟩ := by
  simp only [preprocessStep, h]
  rw [if_pos (by decide)]
  exact getCol_setCol_self _ _ _

theorem getCol_preprocess_days {df : DF} {s : Series}
    (h : df.getCol "Days of Inventory" = some s) :
    (preprocess_data df).getCol "days_of_inventory"
      = some ⟨true, (toNumericRobust s 0).map Val.num⟩ := by
  show (preprocessStep (preprocessStep (preprocessStep (preprocessStep (preprocessStep
      (preprocessStep (preprocessStep (preprocessStep (preprocessStep df
        ("Price (USD)", "price_usd")) ("COGS (USD)", "cogs_usd"))
        ("Units in Stock", "units_in_stock")) ("Days of Inventory", "days_of_inventory"))
        ("Views Last Month", "views_last_month"))
        ("Volume Sold Last Month", "volume_sold_last_month"))
        ("Brand Tier", "brand_tier")) ("Product Name", "Product Name"))
        ("Brand", "Brand")).getCol "days_of_inventory" = _
  rw [getCol_preprocessStep_ne _ _ (by decide), getCol_preprocessStep_ne _ _ (by decide),
    getCol_preprocessStep_ne _ _ (by decide), getCol_preprocessStep_ne _ _ (by decide),
    getCol_preprocessStep_ne _ _ (by decide)]
  apply getCol_preprocessStep_days
  rw [getCol_preprocessStep_ne _ _ (by decide), getCol_preprocessStep_ne _ _ (by decide),
    getCol_preprocessStep_ne _ _ (by decide)]
  exact h

theorem getCol_calculate_features_ne (cfg : WeightsConfig) (df : DF) {c : String}
    (h1 : c ≠ "profit_margin") (h2 : c ≠ "sales_velocity")
    (h3 : c ≠ "engagement") (h4 : c ≠ "brand_tier_weight") :
    (calculate_features cfg df).getCol c = df.getCol c := by
  simp only [calculate_features]
  split
  · split
    · rw [getCol_setCol_ne _ _ h4, getCol_setCol_ne _ _ h3,
        getCol_setCol_ne _ _ h2, getCol_setCol_ne _ _ h1]
    · rw [getCol_setCol_ne _ _ h4, getCol_setCol_ne _ _ h3,
        getCol_setCol_ne _ _ h2, getCol_setCol_ne _ _ h1]
  · rw [getCol_setCol_ne _ _ h4, getCol_setCol_ne _ _ h3,
      getCol_setCol_ne _ _ h2, getCol_setCol_ne _ _ h1]

theorem getCol_calculate_features_profit_margin (cfg : WeightsConfig) (df : DF) :
    (calculate_features cfg df).getCol "profit_margin"
      = some ⟨true, (List.zipWith profitMarginCell
          (toNumericRobust ((df.getCol "price_usd").getD emptyFloatCol) 0)
          (toNumericRobust ((df.getCol "cogs_usd").getD emptyFloatCol) 0)).map Val.num⟩ := by
  simp only [calculate_features]
  split
  · split
    · rw [getCol_setCol_ne _ _ (by decide), getCol_setCol_ne _ _ (by decide),
        getCol_setCol_ne _ _ (by decide), getCol_setCol_self]
    · rw [getCol_setCol_ne _ _ (by decide), getCol_setCol_ne _ _ (by decide),
        getCol_setCol_ne _ _ (by decide), getCol_setCol_self]
  · rw [getCol_setCol_ne _ _ (by decide), getCol_setCol_ne _ _ (by decide),
      getCol_setCol_ne _ _ (by decide), getCol_setCol_self]

theorem WF_calculate_features {cfg : WeightsConfig} {df : DF} {n : ℕ} (hwf : df.WF n)
    (hp : df.hasCol "price_usd" = true) (hc : df.hasCol "cogs_usd" = true)
    (hv : df.hasCol "volume_sold_last_month" = true)
    (hw : df.hasCol "views_last_month" = true) :
    (calculate_features cfg df).WF n := by
  obtain ⟨sp, hsp⟩ := hasCol_exists hp
  obtain ⟨sc, hsc⟩ := hasCol_exists hc
  obtain ⟨sv, hsv⟩ := hasCol_exists hv
  obtain ⟨sw, hsw⟩ := hasCol_exists hw
  simp only [calculate_features, hsp, hsc, Option.getD_some]
  rw [getCol_setCol_ne _ _ (show ("volume_sold_last_month" : String) ≠ "profit_margin" by decide),
    hsv, Option.getD_some]
  rw [getCol_setCol_ne _ _ (show ("views_last_month" : String) ≠ "sales_velocity" by decide),
    getCol_setCol_ne _ _ (show ("views_last_month" : String) ≠ "profit_margin" by decide),
    hsw, Option.getD_some]
  have hwf1 : (df.setCol "profit_margin"
      ⟨true, (List.zipWith profitMarginCell (toNumericRobust sp 0)
        (toNumericRobust sc 0)).map Val.num⟩).WF n :=
    WF_setCol hwf (by
      simp [List.length_zipWith, length_toNumericRobust,
        getCol_length hwf hsp, getCol_length hwf hsc])
  have hwf2 := WF_setCol (c := "sales_velocity")
    (s := ⟨true, (toNumericRobust sv 0).map Val.num⟩) hwf1
    (by simp [length_toNumericRobust, getCol_length hwf hsv])
  have hwf3 := WF_setCol (c := "engagement")
    (s := ⟨true, (toNumericRobust sw 0).map Val.num⟩) hwf2
    (by simp [length_toNumericRobust, getCol_length hwf hsw])
  split
  next s heq =>
    split
    · exact WF_setCol hwf3 (by simp [getCol_length hwf3 heq])
    · exact WF_setCol hwf3 (by simp [hwf3.1])
  next heq =>
    exact WF_setCol hwf3 (by simp [hwf3.1])

theorem length_composeMask (m1 m2 : List Bool) :
    (composeMask m1 m2).length = m1.length := by
  induction m1 generalizing m2 with
  | nil => simp [composeMask]
  | cons b bs ih =>
    rcases b with _ | _
    · simp [composeMask, ih]
    · rcases m2 with _ | ⟨b2, bs2⟩
      · simp [composeMask, ih]
      · simp [composeMask, ih]

theorem minStockStage_masked (cfg : WeightsConfig) {df : DF} {n : ℕ} (hwf : df.WF n) :
    ∃ m : List Bool, m.length = n ∧ minStockStage cfg df = df.maskRows m := by
  rcases hms : cfg.min_stock with _ | ms
  · exact ⟨List.replicate n true, by simp,
      by simp [minStockStage, hms, maskRows_replicate_true hwf]⟩
  · rcases hcol : df.getCol "units_in_stock" with _ | s
    · exact ⟨List.replicate n true, by simp,
        by simp [minStockStage, hms, hcol, maskRows_replicate_true hwf]⟩
    · refine ⟨(toNumericRobust s 0).map (fun q => decide (ms ≤ q)), ?_, ?_⟩
      · simp [length_toNumericRobust, getCol_length hwf hcol]
      · simp [minStockStage, hms, hcol]

theorem maxDaysStage_masked (cfg : WeightsConfig) {df : DF} {n : ℕ} (hwf : df.WF n) :
    ∃ m : List Bool, m.length = n ∧ maxDaysStage cfg df = df.maskRows m := by
  rcases hmd : cfg.max_inventory_days with _ | md
  · exact ⟨List.replicate n true, by simp,
      by simp [maxDaysStage, hmd, maskRows_replicate_true hwf]⟩
  · rcases hcol : df.getCol "days_of_inventory" with _ | s
    · exact ⟨List.replicate n true, by simp,
        by simp [maxDaysStage, hmd, hcol, maskRows_replicate_true hwf]⟩
    · refine ⟨daysLeMask s md, ?_, by simp [maxDaysStage, hmd, hcol]⟩
      have := getCol_length hwf hcol
      by_cases hd : s.numericDtype <;> simp [daysLeMask, hd, this]

theorem apply_filters_masked (cfg : WeightsConfig) {df : DF} {n : ℕ} (hwf : df.WF n) :
    ∃ m : List Bool, m.length = n ∧ apply_filters cfg df = df.maskRows m := by
  obtain ⟨m1, hm1len, hm1⟩ := minStockStage_masked cfg hwf
  have hwf1 : (df.maskRows m1).WF (m1.count true) := WF_maskRows hwf hm1len
  obtain ⟨m2, _, hm2⟩ := maxDaysStage_masked cfg hwf1
  refine ⟨composeMask m1 m2, by rw [length_composeMask, hm1len], ?_⟩
  rw [apply_filters, hm1, hm2, maskRows_maskRows]

theorem WF_apply_filters (cfg : WeightsConfig) {df : DF} {n : ℕ} (hwf : df.WF n) :
    ∃ k : ℕ, (apply_filters cfg df).WF k := by
  obtain ⟨m, hmlen, hm⟩ := apply_filters_masked cfg hwf
  exact ⟨m.count true, hm ▸ WF_maskRows hwf hmlen⟩

theorem getCol_normStep_ne (df : DF) (g : String) {c : String} (h : c ≠ "norm_" ++ g) :
    (normStep df g).getCol c = df.getCol c := by
  simp only [normStep]
  split
  next s heq =>
    split
    · exact getCol_setCol_ne _ _ h
    · split
      · exact getCol_setCol_ne _ _ h
      · split
        · exact getCol_setCol_ne _ _ h
        · exact getCol_setCol_ne _ _ h
  next heq => exact getCol_setCol_ne _ _ h

theorem WF_normStep {df : DF} {n : ℕ} (hwf : df.WF n) (g : String) :
    (normStep df g).WF n := by
  simp only [normStep]
  split
  next s heq =>
    split
    · exact WF_setCol hwf (by simp [hwf.1])
    · split
      · exact WF_setCol hwf (by simp [length_toNumericRobust, getCol_length hwf heq])
      · split
        · exact WF_setCol hwf (by simp [hwf.1])
        · exact WF_setCol hwf (by simp [hwf.1])
  next heq => exact WF_setCol hwf (by simp [hwf.1])

theorem normalize_features_eq (df : DF) :
    normalize_features df
      = normStep (normStep (normStep (normStep df "sales_velocity") "profit_margin")
          "engagement") "brand_tier_weight" := rfl

theorem getCol_normalize_features_ne (df : DF) {c : String}
    (h1 : c ≠ "norm_sales_velocity") (h2 : c ≠ "norm_profit_margin")
    (h3 : c ≠ "norm_engagement") (h4 : c ≠ "norm_brand_tier_weight") :
    (normalize_features df).getCol c = df.getCol c := by
  rw [normalize_features_eq, getCol_normStep_ne _ _ h4, getCol_normStep_ne _ _ h3,
    getCol_normStep_ne _ _ h2, getCol_normStep_ne _ _ h1]

theorem WF_normalize_features {df : DF} {n : ℕ} (hwf : df.WF n) :
    (normalize_features df).WF n := by
  rw [normalize_features_eq]
  exact WF_normStep (WF_normStep (WF_normStep (WF_normStep hwf _) _) _) _

theorem getCol_scoreStep_ne (d : DF) (p : String × ℚ) {c : String} (h : c ≠ "score") :
    (scoreStep d p).getCol c = d.getCol c := by
  simp only [scoreStep]
  split
  · exact getCol_setCol_ne _ _ h
  · rfl

theorem getCol_scoreFold_ne (ws : List (String × ℚ)) (d : DF) {c : String} (h : c ≠ "score") :
    (ws.foldl scoreStep d).getCol c = d.getCol c := by
  induction ws generalizing d with
  | nil => rfl
  | cons p ps ih => rw [List.foldl_cons, ih, getCol_scoreStep_ne _ _ h]

theorem getCol_scoreStep_score (d : DF) (p : String × ℚ) {sc : List ℚ}
    (hsc : d.getCol "score" = some ⟨true, sc.map Val.num⟩) :
    (scoreStep d p).getCol "score" = some ⟨true,
      (match d.getCol (scoreTargetCol p.1) with
       | some s => List.zipWith (fun a q => a + p.2 * q) sc (toNumericRobust s 0)
       | none => sc).map Val.num⟩ := by
  rcases hcol : d.getCol (scoreTargetCol p.1) with _ | s
  · simp only [scoreStep, hcol]
    exact hsc
  · simp only [scoreStep, hcol]
    rw [getCol_setCol_self, hsc]
    simp [toNumericRobust_num]

theorem getCol_scoreFold_score (ws : List (String × ℚ)) (d : DF) (sc : List ℚ)
    (hsc : d.getCol "score" = some ⟨true, sc.map Val.num⟩) :
    (ws.foldl scoreStep d).getCol "score" = some ⟨true,
      (ws.foldl (fun acc p =>
        match d.getCol (scoreTargetCol p.1) with
        | some s => List.zipWith (fun a q => a + p.2 * q) acc (toNumericRobust s 0)
        | none => acc) sc).map Val.num⟩ := by
  induction ws generalizing d sc with
  | nil => exact hsc
  | cons p ps ih =>
    rw [List.foldl_cons, List.foldl_cons]
    have hstep := getCol_scoreStep_score d p hsc
    have hih := ih (scoreStep d p) _ hstep
    rw [hih]
    have hext : ∀ (a : List ℚ), ∀ b ∈ ps,
        (match (scoreStep d p).getCol (scoreTargetCol b.1) with
         | some s => List.zipWith (fun x q => x + b.2 * q) a (toNumericRobust s 0)
         | none => a)
        = (match d.getCol (scoreTargetCol b.1) with
           | some s => List.zipWith (fun x q => x + b.2 * q) a (toNumericRobust s 0)
           | none => a) := by
      intro a b _
      rw [getCol_scoreStep_ne d p (scoreTargetCol_ne_score b.1)]
    rw [List.foldl_ext _ _ _ hext]

theorem WF_scoreFold {n : ℕ} : ∀ (ws : List (String × ℚ)) (d : DF), d.WF n →
    d.hasCol "score" = true → (ws.foldl scoreStep d).WF n := by
  intro ws
  induction ws with
  | nil =>
    intro d h _
    exact h
  | cons p ps ih =>
    intro d hwf hs
    rw [List.foldl_cons]
    obtain ⟨ss, hss⟩ := hasCol_exists hs
    rcases hcol : d.getCol (scoreTargetCol p.1) with _ | s
    · have hstep : scoreStep d p = d := by simp [scoreStep, hcol]
      rw [hstep]
      exact ih d hwf hs
    · have hstep : scoreStep d p = d.setCol "score"
          ⟨true, (List.zipWith (fun a q => a + p.2 * q)
            (toNumericRobust ((d.getCol "score").getD emptyFloatCol) 0)
            (toNumericRobust s 0)).map Val.num⟩ := by
        simp [scoreStep, hcol]
      rw [hstep]
      refine ih _ (WF_setCol hwf ?_) (hasCol_setCol_self _ _ _)
      simp [hss, List.length_zipWith, length_toNumericRobust,
        getCol_length hwf hss, getCol_length hwf hcol]

theorem WF_calculate_scores (cfg : WeightsConfig) {d : DF} {n : ℕ} (hwf : d.WF n) :
    (calculate_scores cfg d).WF n :=
  WF_scoreFold _ _ (WF_setCol hwf (by simp [hwf.1])) (hasCol_setCol_self _ _ _)

theorem getCol_calculate_scores_ne (cfg : WeightsConfig) (d : DF) {c : String}
    (h : c ≠ "score") : (calculate_scores cfg d).getCol c = d.getCol c := by
  rw [calculate_scores, getCol_scoreFold_ne _ _ h, getCol_setCol_ne _ _ h]

theorem getCol_calculate_scores_score (cfg : WeightsConfig) (d : DF) :
    (calculate_scores cfg d).getCol "score" = some ⟨true,
      (cfg.scoring_weights.foldl (fun acc p =>
        match d.getCol (scoreTargetCol p.1) with
        | some s => List.zipWith (fun a q => a + p.2 * q) acc (toNumericRobust s 0)
        | none => acc) (List.replicate d.nrows (0 : ℚ))).map Val.num⟩ := by
  rw [calculate_scores]
  have h0 : (d.setCol "score" ⟨true, List.replicate d.nrows (Val.num 0)⟩).getCol "score"
      = some ⟨true, (List.replicate d.nrows (0 : ℚ)).map Val.num⟩ := by
    rw [getCol_setCol_self]
    simp
  rw [getCol_scoreFold_score _ _ _ h0]
  have hext : ∀ (a : List ℚ), ∀ b ∈ cfg.scoring_weights,
      (match (d.setCol "score" ⟨true, List.replicate d.nrows (Val.num 0)⟩).getCol
          (scoreTargetCol b.1) with
       | some s => List.zipWith (fun x q => x + b.2 * q) a (toNumericRobust s 0)
       | none => a)
      = (match d.getCol (scoreTargetCol b.1) with
         | some s => List.zipWith (fun x q => x + b.2 * q) a (toNumericRobust s 0)
         | none => a) := by
    intro a b _
    rw [getCol_setCol_ne _ _ (scoreTargetCol_ne_score b.1)]
  rw [List.foldl_ext _ _ _ hext]

theorem getCol_normStep_self {df : DF} {n : ℕ} (hwf : df.WF n) (f : String) {s : Series}
    (hs : df.getCol f = some s) :
    (normStep df f).getCol ("norm_" ++ f) = some ⟨true,
      if s.vals = [] then List.replicate n (Val.num 0)
      else (toNumericRobust s 0).map (fun q =>
        Val.num (minMaxRule (listMin (toNumericRobust s 0)) (listMax (toNumericRobust s 0)) q))⟩ := by
  simp only [normStep, hs]
  by_cases he : s.vals = []
  · rw [if_pos he, getCol_setCol_self, if_pos he, hwf.1]
  · have hqlen : (toNumericRobust s 0).length = n := by
      rw [length_toNumericRobust]; exact getCol_length hwf hs
    have hqne : toNumericRobust s 0 ≠ [] := by
      intro hq
      exact he (List.eq_nil_of_length_eq_zero
        (by rw [← length_toNumericRobust s 0, hq]; rfl))
    have hminmax := listMin_le_listMax hqne
    rw [if_neg he]
    by_cases hlt : listMin (toNumericRobust s 0) < listMax (toNumericRobust s 0)
    · rw [if_pos hlt, getCol_setCol_self, if_neg he]
      refine congrArg _ (congrArg _ (List.map_congr_left (fun q _ => ?_)))
      rw [minMaxRule, if_pos hlt]
    · have heq2 : listMax (toNumericRobust s 0) = listMin (toNumericRobust s 0) :=
        le_antisymm (not_lt.mp hlt) hminmax
      by_cases hz : listMax (toNumericRobust s 0) ≠ 0
      · rw [if_neg hlt, if_pos ⟨heq2, hz⟩, getCol_setCol_self, if_neg he, hwf.1]
        refine congrArg _ (congrArg _ ?_)
        have : ∀ q ∈ toNumericRobust s 0,
            Val.num (minMaxRule (listMin (toNumericRobust s 0))
              (listMax (toNumericRobust s 0)) q) = Val.num 1 := by
          intro q _
          rw [minMaxRule, if_neg hlt, if_pos hz]
        rw [List.map_congr_left this, List.map_const', hqlen]
      · rw [if_neg hlt, if_neg (by simp [hz]), getCol_setCol_self, if_neg he, hwf.1]
        refine congrArg _ (congrArg _ ?_)
        have : ∀ q ∈ toNumericRobust s 0,
            Val.num (minMaxRule (listMin (toNumericRobust s 0))
              (listMax (toNumericRobust s 0)) q) = Val.num 0 := by
          intro q _
          rw [minMaxRule, if_neg hlt, if_neg hz]
        rw [List.map_congr_left this, List.map_const', hqlen]

theorem scoreFold_length (d : DF) (n : ℕ)
    (hlen : ∀ comp s, d.getCol (scoreTargetCol comp) = some s → s.vals.length = n) :
    ∀ (ws : List (String × ℚ)) (acc : List ℚ), acc.length = n →
      (ws.foldl (fun acc p =>
        match d.getCol (scoreTargetCol p.1) with
        | some s => List.zipWith (fun a q => a + p.2 * q) acc (toNumericRobust s 0)
        | none => acc) acc).length = n := by
  intro ws
  induction ws with
  | nil =>
    intro acc h
    exact h
  | cons p ps ih =>
    intro acc hacc
    rw [List.foldl_cons]
    rcases hcol : d.getCol (scoreTargetCol p.1) with _ | s
    · simp only [hcol]
      exact ih acc hacc
    · simp only [hcol]
      exact ih _ (by simp [List.length_zipWith, hacc, length_toNumericRobust, hlen _ _ hcol])

theorem scoreFold_getD (d : DF) (n : ℕ)
    (hlen : ∀ comp s, d.getCol (scoreTargetCol comp) = some s → s.vals.length = n) :
    ∀ (ws : List (String × ℚ)) (acc : List ℚ), acc.length = n → ∀ i, i < n →
      (ws.foldl (fun acc p =>
        match d.getCol (scoreTargetCol p.1) with
        | some s => List.zipWith (fun a q => a + p.2 * q) acc (toNumericRobust s 0)
        | none => acc) acc).getD i 0
      = acc.getD i 0 + (ws.map (fun p =>
          match d.getCol (scoreTargetCol p.1) with
          | some s => p.2 * (toNumericRobust s 0).getD i 0
          | none => 0)).sum := by
  intro ws
  induction ws with
  | nil =>
    intro acc _ i _
    simp
  | cons p ps ih =>
    intro acc hacc i hi
    rw [List.foldl_cons, List.map_cons, List.sum_cons]
    rcases hcol : d.getCol (scoreTargetCol p.1) with _ | s
    · simp only [hcol]
      rw [ih acc hacc i hi]
      ring
    · simp only [hcol]
      have hrs : (toNumericRobust s 0).length = n := by
        rw [length_toNumericRobust]; exact hlen _ _ hcol
      have hlen' : (List.zipWith (fun a q => a + p.2 * q) acc (toNumericRobust s 0)).length = n := by
        simp [List.length_zipWith, hacc, hrs]
      rw [ih _ hlen' i hi,
        getD_zipWith _ (by rw [hacc]; exact hi) (by rw [hrs]; exact hi)]
      ring

theorem setCol_ne_nil (df : DF) (c : String) (s : Series) : df.setCol c s ≠ [] := by
  rcases df with _ | ⟨p, ps⟩
  · simp [setCol]
  · by_cases hp : p.1 = c <;> simp [setCol, hp]

theorem length_argsortDesc (qs : List ℚ) : (argsortDesc qs).length = qs.length := by
  simp [argsortDesc, length_sortDesc]

theorem headInt_map {α β : Type} (f : α → β) (t : ℤ) (l : List α) :
    headInt t (l.map f) = (headInt t l).map f := by
  by_cases h : 0 ≤ t <;> simp [headInt, h, List.map_take]

theorem chain'_headInt {r : ℚ → ℚ → Prop} {l : List ℚ} (h : List.Chain' r l) (t : ℤ) :
    List.Chain' r (headInt t l) := by
  by_cases h0 : 0 ≤ t <;> simp only [headInt, h0, if_true, if_false] <;> exact h.take _

theorem headInt_range (t : ℤ) (n : ℕ) : headInt t (List.range n) = List.range (headLen t n) := by
  by_cases h : 0 ≤ t
  · simp [headInt, headLen, h, List.take_range]
  · simp [headInt, headLen, h, List.take_range, List.length_range,
      Nat.min_eq_left, Nat.sub_le]

theorem sortDesc_score_map (scores : List ℚ) :
    (argsortDesc scores).map (fun i => (scores.map Val.num).getD i Val.na)
      = ((sortDesc (scores.zip (List.range scores.length))).map (fun p => p.1)).map
          Val.num := by
  unfold argsortDesc
  rw [List.map_map, List.map_map]
  apply List.map_congr_left
  intro p hp
  have hmem : p ∈ scores.zip (List.range scores.length) := mem_sortDesc hp
  have hg : scores.get? p.2 = some p.1 := zip_range_get? hmem
  show (scores.map Val.num).getD p.2 Val.na = Val.num p.1
  rw [List.getD_eq_getElem?_getD, List.getElem?_map, ← List.get?_eq_getElem?, hg]
  rfl

theorem chain'_sortDesc_fst (l : List (ℚ × ℕ)) :
    List.Chain' (fun a b : ℚ => b ≤ a) ((sortDesc l).map (fun p => p.1)) :=
  (List.chain'_map _).mpr (chain'_sortDesc l)

theorem nrows_of_isEmpty {df : DF} (h : df.isEmpty = true) : df.nrows = 0 := by
  rcases df with _ | ⟨p, ps⟩
  · rfl
  · simp only [isEmpty, List.length_cons, Nat.succ_ne_zero, beq_iff_eq,
      Bool.or_eq_true] at h
    rcases h with h | h
    · exact absurd h (by simp)
    · simpa using h

theorem hasCol_congr {d1 d2 : DF} {c : String} (h : d1.getCol c = d2.getCol c)
    (h2 : d2.hasCol c = true) : d1.hasCol c = true := by
  simp only [hasCol] at h2 ⊢
  rw [h]
  exact h2

theorem hasCol_permuteRows {df : DF} {c : String} (perm : List ℕ)
    (h : df.hasCol c = true) : (permuteRows df perm).hasCol c = true := by
  simp only [hasCol, getCol_permuteRows]
  obtain ⟨s, hs⟩ := hasCol_exists h
  rw [hs]
  rfl

theorem hasCol_headDF {df : DF} {c : String} (t : ℤ)
    (h : df.hasCol c = true) : (headDF df t).hasCol c = true := by
  simp only [hasCol, getCol_headDF]
  obtain ⟨s, hs⟩ := hasCol_exists h
  rw [hs]
  rfl

theorem hasCol_rank_products {df : DF} {c : String} (t : ℤ)
    (h : df.hasCol c = true) : (rank_products df t).hasCol c = true := by
  simp only [rank_products]
  exact hasCol_headDF t (hasCol_setCol _ _ (hasCol_permuteRows _ (hasCol_setCol _ _ h)))

theorem WF_rank_products {df : DF} {k : ℕ} {sl : List ℚ}
    (hsc : df.getCol "score" = some ⟨true, sl.map Val.num⟩) (hsl : sl.length = k) (t : ℤ) :
    (rank_products df t).WF (headLen t k) := by
  simp only [rank_products, hsc, Option.getD_some, toNumericRobust_num]
  have h2 := WF_permuteRows (setCol_ne_nil df "score" ⟨true, sl.map Val.num⟩) (argsortDesc sl)
  rw [length_argsortDesc, hsl] at h2
  have h3 := WF_setCol (c := "rank")
    (s := ⟨true, (List.range (argsortDesc sl).length).map (fun i : ℕ => Val.num ((i : ℚ) + 1))⟩)
    h2 (by simp [length_argsortDesc, hsl])
  exact WF_headDF h3 t

end Lemmas

section Claims

open DF ProductScorer

/-- C1: for each of the four derived features, `normalize_features` applies
the exact three-way min-max rule over the current record set: with
`max > min` the normalized value is `(value - min) / (max - min)`; with
`max == min != 0` every record normalizes to `1.0`; with `max == min == 0`
(or an empty record set, where the column is a zero column over the frame's
rows) every record normalizes to `0.0`.  A lone record with a nonzero value
falls in the second branch and normalizes to `1.0` (see the witness). -/
theorem claim_C1 (df : DF) (n : ℕ) (hwf : df.WF n) (f : String)
    (hf : f ∈ featuresToNormalize) (s : Series) (hs : df.getCol f = some s) :
    (normalize_features df).getCol ("norm_" ++ f) = some ⟨true,
      if s.vals = [] then List.replicate n (Val.num 0)
      else (toNumericRobust s 0).map (fun q =>
        Val.num (minMaxRule (listMin (toNumericRobust s 0))
          (listMax (toNumericRobust s 0)) q))⟩ := by
  rw [normalize_features_eq]
  simp only [featuresToNormalize, List.mem_cons, List.not_mem_nil, or_false] at hf
  rcases hf with rfl | rfl | rfl | rfl
  · rw [getCol_normStep_ne _ _ (by decide), getCol_normStep_ne _ _ (by decide),
      getCol_normStep_ne _ _ (by decide)]
    exact getCol_normStep_self hwf _ hs
  · rw [getCol_normStep_ne _ _ (by decide), getCol_normStep_ne _ _ (by decide)]
    apply getCol_normStep_self (WF_normStep hwf _)
    rw [getCol_normStep_ne _ _ (by decide)]
    exact hs
  · rw [getCol_normStep_ne _ _ (by decide)]
    apply getCol_normStep_self (WF_normStep (WF_normStep hwf _) _)
    rw [getCol_normStep_ne _ _ (by decide), getCol_normStep_ne _ _ (by decide)]
    exact hs
  · apply getCol_normStep_self (WF_normStep (WF_normStep (WF_normStep hwf _) _) _)
    rw [getCol_normStep_ne _ _ (by decide), getCol_normStep_ne _ _ (by decide),
      getCol_normStep_ne _ _ (by decide)]
    exact hs

/-- Witness for C1: a single surviving record with the nonzero feature value
`5` normalizes to `1.0` (not `0.0`). -/
theorem claim_C1_witness :
    (normalize_features [("sales_velocity", ⟨true, [Val.num 5]⟩)]).getCol
      "norm_sales_velocity" = some ⟨true, [Val.num 1]⟩ := by
  have h := claim_C1 [("sales_velocity", ⟨true, [Val.num 5]⟩)] 1 ⟨by decide, by decide⟩
    "sales_velocity" (by decide) ⟨true, [Val.num 5]⟩ (by decide)
  exact h.trans (by decide)

/-- C9: `calculate_features` derives `profit_margin` cell-wise by the
piecewise rule `0` when `price <= 0`, else `(price - cogs) / price`, over the
robustly-coerced price and cogs columns (so undefined inputs were already
coerced to `0`); the value is not clamped and is negative when
`cogs > price > 0`. -/
theorem claim_C9 (cfg : WeightsConfig) (df : DF) :
    ((calculate_features cfg df).getCol "profit_margin"
      = some ⟨true, (List.zipWith profitMarginCell
          (toNumericRobust ((df.getCol "price_usd").getD emptyFloatCol) 0)
          (toNumericRobust ((df.getCol "cogs_usd").getD emptyFloatCol) 0)).map Val.num⟩)
    ∧ (∀ p c : ℚ, p ≤ 0 → profitMarginCell p c = 0)
    ∧ (∀ p c : ℚ, 0 < p → profitMarginCell p c = (p - c) / p)
    ∧ (∀ p c : ℚ, 0 < p → p < c → profitMarginCell p c < 0) := by
  refine ⟨getCol_calculate_features_profit_margin cfg df, ?_, ?_, ?_⟩
  · intro p c hp
    rw [profitMarginCell, if_neg (not_lt.mpr hp)]
  · intro p c hp
    rw [profitMarginCell, if_pos hp]
  · intro p c hp hc
    rw [profitMarginCell, if_pos hp]
    exact div_neg_of_neg_of_pos (by linarith) hp

/-- Witness for C9: with price `2` and cogs `6` the derived margin is `-2`
(negative, unclamped); a non-positive price yields margin `0`. -/
theorem claim_C9_witness :
    ((calculate_features ⟨[], [], none, none, 10⟩
        [("price_usd", ⟨true, [Val.num 2]⟩), ("cogs_usd", ⟨true, [Val.num 6]⟩)]).getCol
      "profit_margin" = some ⟨true, [Val.num (-2)]⟩)
    ∧ profitMarginCell (-2) 5 = 0 ∧ profitMarginCell 2 4 < 0 := by
  have h := claim_C9 ⟨[], [], none, none, 10⟩
    [("price_usd", ⟨true, [Val.num 2]⟩), ("cogs_usd", ⟨true, [Val.num 6]⟩)]
  refine ⟨h.1.trans ?_, h.2.1 (-2) 5 (by decide), h.2.2.2 2 4 (by decide) (by decide)⟩
  simp [DF.getCol, emptyFloatCol, toNumericRobust, profitMarginCell]
  norm_num

/-- C6: `calculate_scores` computes each record's score as the sum, over the
configured `scoring_weights` entries, of the weight times the record's value
in the targeted normalized column (`norm_<feature>`, with the key
`brand_tier` renamed to target `norm_brand_tier_weight`); an entry whose
target column is missing contributes `0` (skipped, no error), and features
with no configured weight contribute nothing. -/
theorem claim_C6 (cfg : WeightsConfig) (df : DF) (n : ℕ) (hwf : df.WF n) :
    ∃ sc : List ℚ,
      (calculate_scores cfg df).getCol "score" = some ⟨true, sc.map Val.num⟩
      ∧ sc.length = n
      ∧ ∀ i, i < n → sc.getD i 0 = (cfg.scoring_weights.map (fun p =>
          match df.getCol (scoreTargetCol p.1) with
          | some s => p.2 * (toNumericRobust s 0).getD i 0
          | none => 0)).sum := by
  refine ⟨_, getCol_calculate_scores_score cfg df, ?_, ?_⟩
  · exact scoreFold_length df n (fun comp s h => getCol_length hwf h) _ _
      (by simp [hwf.1])
  · intro i hi
    rw [scoreFold_getD df n (fun comp s h => getCol_length hwf h) _ _
      (by simp [hwf.1]) i hi]
    rw [List.getD_eq_getElem?_getD, List.getElem?_replicate]
    simp [hwf.1, hi]

/-- Witness for C6: two records, weights over `sales_velocity`, the renamed
`brand_tier`, and a misconfigured `bogus` feature; the bogus weight is
skipped and the scores come out as the configured weighted sums. -/
theorem claim_C6_witness :
    (∃ sc : List ℚ,
      DF.getCol (calculate_scores
          ⟨[("sales_velocity", 1/2), ("brand_tier", 1/4), ("bogus", 1)],
            [], none, none, 10⟩
          [("norm_sales_velocity", ⟨true, [Val.num 1, Val.num 0]⟩),
           ("norm_brand_tier_weight", ⟨true, [Val.num 0, Val.num 1]⟩)]) "score"
        = some ⟨true, sc.map Val.num⟩
      ∧ sc.length = 2
      ∧ ∀ i, i < 2 → sc.getD i 0
        = ([("sales_velocity", (1:ℚ)/2), ("brand_tier", 1/4), ("bogus", 1)].map (fun p =>
          match DF.getCol [("norm_sales_velocity", ⟨true, [Val.num 1, Val.num 0]⟩),
              ("norm_brand_tier_weight", ⟨true, [Val.num 0, Val.num 1]⟩)]
              (scoreTargetCol p.1) with
          | some s => p.2 * (toNumericRobust s 0).getD i 0
          | none => 0)).sum)
    ∧ DF.getCol (calculate_scores
          ⟨[("sales_velocity", 1/2), ("brand_tier", 1/4), ("bogus", 1)],
            [], none, none, 10⟩
          [("norm_sales_velocity", ⟨true, [Val.num 1, Val.num 0]⟩),
           ("norm_brand_tier_weight", ⟨true, [Val.num 0, Val.num 1]⟩)]) "score"
        = some ⟨true, [Val.num (1/2), Val.num (1/4)]⟩ := by
  constructor
  · exact claim_C6
      ⟨[("sales_velocity", 1/2), ("brand_tier", 1/4), ("bogus", 1)], [], none, none, 10⟩
      [("norm_sales_velocity", ⟨true, [Val.num 1, Val.num 0]⟩),
       ("norm_brand_tier_weight", ⟨true, [Val.num 0, Val.num 1]⟩)]
      2 ⟨by decide, by decide⟩
  · simp [calculate_scores, scoreStep, scoreTargetCol, DF.getCol, DF.setCol,
      DF.hasCol, DF.nrows, toNumericRobust, emptyFloatCol, valToNum?]

/-- C7: in the filter stage itself, a record whose `days_of_inventory` cell
does not convert to a number (missing, or an unparseable string) is filled
with the infinite default and therefore fails the `days <= max_days` mask
whenever `max_inventory_days` is configured — the whole stage is exactly the
mask application, and the mask is `false` at that record.  An unconfigured
filter (`min_stock` or `max_inventory_days` absent/`None`) skips its
criterion entirely and removes no records. -/
theorem claim_C7 (cfg : WeightsConfig) (df : DF) (md : ℚ) (s : Series) (i : ℕ) (v : Val)
    (hmd : cfg.max_inventory_days = some md) (hms : cfg.min_stock = none)
    (hcol : df.getCol "days_of_inventory" = some s)
    (hv : s.vals.get? i = some v) (hbad : valToNum? v = none) :
    ((daysLeMask s md).get? i = some false
      ∧ apply_filters cfg df = df.maskRows (daysLeMask s md))
    ∧ (∀ (cfg' : WeightsConfig) (df' : DF),
        (cfg'.min_stock = none → minStockStage cfg' df' = df')
        ∧ (cfg'.max_inventory_days = none → maxDaysStage cfg' df' = df')) := by
  refine ⟨⟨?_, ?_⟩, ?_⟩
  · by_cases hd : s.numericDtype = true
    · simp only [daysLeMask, hd, if_true]
      rw [List.get?_eq_getElem?, List.getElem?_map, ← List.get?_eq_getElem?, hv]
      rcases v with q | st | _
      · exact absurd hbad (by simp [valToNum?])
      · rfl
      · rfl
    · have hd' : s.numericDtype = false := by simpa using hd
      have hmm : daysLeMask s md = s.vals.map (fun v =>
          match valToNum? v with | some q => decide (q ≤ md) | none => false) := by
        simp [daysLeMask, hd']
      rw [hmm, List.get?_eq_getElem?, List.getElem?_map, ← List.get?_eq_getElem?, hv]
      simp [hbad]
  · rw [apply_filters]
    have h1 : minStockStage cfg df = df := by simp [minStockStage, hms]
    rw [h1]
    simp [maxDaysStage, hmd, hcol]
  · intro cfg' df'
    exact ⟨fun h => by simp [minStockStage, h], fun h => by simp [maxDaysStage, h]⟩

/-- Witness for C7: a frame whose first record has the unparseable inventory
age `"oops"`; with `max_inventory_days = 90` configured, the filter keeps
only the numeric record. -/
theorem claim_C7_witness :
    ((daysLeMask ⟨false, [Val.str "oops", Val.num 30]⟩ 90).get? 0 = some false
      ∧ apply_filters ⟨[], [], none, some 90, 10⟩
          [("days_of_inventory", ⟨false, [Val.str "oops", Val.num 30]⟩)]
        = DF.maskRows [("days_of_inventory", ⟨false, [Val.str "oops", Val.num 30]⟩)]
            (daysLeMask ⟨false, [Val.str "oops", Val.num 30]⟩ 90))
    ∧ apply_filters ⟨[], [], none, some 90, 10⟩
        [("days_of_inventory", ⟨false, [Val.str "oops", Val.num 30]⟩)]
      = [("days_of_inventory", ⟨false, [Val.num 30]⟩)] := by
  have h := claim_C7 ⟨[], [], none, some 90, 10⟩
    [("days_of_inventory", ⟨false, [Val.str "oops", Val.num 30]⟩)] 90
    ⟨false, [Val.str "oops", Val.num 30]⟩ 0 (Val.str "oops")
    rfl rfl (by decide) (by decide) (by decide)
  refine ⟨h.1, h.1.2.trans (by decide)⟩

/-- C8: filtering is monotonic and value-preserving: `apply_filters` is the
application of one boolean row mask to every column, so the surviving rows
are a subset of the input by identity, each surviving column is a sublist
(order-preserving, values unaltered, dtype unaltered) of the input column,
and the column set is unchanged. -/
theorem claim_C8 (cfg : WeightsConfig) (df : DF) (n : ℕ) (hwf : df.WF n) :
    (∃ m : List Bool, apply_filters cfg df = df.maskRows m)
    ∧ (apply_filters cfg df).colNames = df.colNames
    ∧ ∀ c s', (apply_filters cfg df).getCol c = some s' →
        ∃ s, df.getCol c = some s ∧ s'.vals.Sublist s.vals
          ∧ s'.numericDtype = s.numericDtype := by
  obtain ⟨m, _, hm⟩ := apply_filters_masked cfg hwf
  refine ⟨⟨m, hm⟩, by rw [hm, colNames_maskRows], ?_⟩
  intro c s' h
  rw [hm, getCol_maskRows] at h
  rcases hs : df.getCol c with _ | s
  · rw [hs] at h
    simp at h
  · rw [hs] at h
    have hs' : s' = s.mask m := by
      have h2 : some (s.mask m) = some s' := h
      injection h2 with h3
      exact h3.symm
    refine ⟨s, rfl, ?_, ?_⟩
    · rw [hs']
      exact maskList_sublist _ _
    · rw [hs']
      rfl

/-- Witness for C8: a two-column frame with a `min_stock = 10` filter; the
output is the mask application, keeps the column set, and each surviving
column is a sublist of its input column. -/
theorem claim_C8_witness :
    (∃ m : List Bool,
      apply_filters ⟨[], [], some 10, none, 10⟩
          [("units_in_stock", ⟨true, [Val.num 50, Val.num 5]⟩),
           ("Product Name", ⟨false, [Val.str "A", Val.str "B"]⟩)]
        = DF.maskRows [("units_in_stock", ⟨true, [Val.num 50, Val.num 5]⟩),
           ("Product Name", ⟨false, [Val.str "A", Val.str "B"]⟩)] m)
    ∧ (apply_filters ⟨[], [], some 10, none, 10⟩
          [("units_in_stock", ⟨true, [Val.num 50, Val.num 5]⟩),
           ("Product Name", ⟨false, [Val.str "A", Val.str "B"]⟩)]).colNames
        = ["units_in_stock", "Product Name"]
    ∧ apply_filters ⟨[], [], some 10, none, 10⟩
          [("units_in_stock", ⟨true, [Val.num 50, Val.num 5]⟩),
           ("Product Name", ⟨false, [Val.str "A", Val.str "B"]⟩)]
        = [("units_in_stock", ⟨true, [Val.num 50]⟩),
           ("Product Name", ⟨false, [Val.str "A"]⟩)] := by
  have h := claim_C8 ⟨[], [], some 10, none, 10⟩
    [("units_in_stock", ⟨true, [Val.num 50, Val.num 5]⟩),
     ("Product Name", ⟨false, [Val.str "A", Val.str "B"]⟩)] 2 ⟨by decide, by decide⟩
  exact ⟨h.1, h.2.1.trans (by decide), by decide⟩

/-- C10: within the full `process` pipeline, a raw `Days of Inventory` cell
that is missing or unparseable is coerced to the numeric value `0` by
`preprocess_data` (which runs before `apply_filters`), so with a configured
`max_inventory_days = md >= 0` the record PASSES the days mask
(`0 <= md`); moreover on the preprocessed (numeric, NaN-free) column the
infinite fallback of the filter-stage conversion is unreachable: the mask
is just the pointwise comparison of the stored numbers. -/
theorem claim_C10 (cfg : WeightsConfig) (df : DF) (s : Series) (i : ℕ) (v : Val) (md : ℚ)
    (hcol : df.getCol "Days of Inventory" = some s)
    (hv : s.vals.get? i = some v) (hbad : valToNum? v = none)
    (hmd : 0 ≤ md) :
    ∃ qs : List ℚ,
      (calculate_features cfg (preprocess_data df)).getCol "days_of_inventory"
        = some ⟨true, qs.map Val.num⟩
      ∧ qs.get? i = some 0
      ∧ (daysLeMask ⟨true, qs.map Val.num⟩ md).get? i = some true
      ∧ (∀ (l : List ℚ) (md' : ℚ), daysLeMask ⟨true, l.map Val.num⟩ md'
          = l.map (fun q => decide (q ≤ md'))) := by
  have hmask : ∀ (l : List ℚ) (md' : ℚ), daysLeMask ⟨true, l.map Val.num⟩ md'
      = l.map (fun q => decide (q ≤ md')) := by
    intro l md'
    simp only [daysLeMask, if_true]
    rw [List.map_map]
    rfl
  have hq0 : (toNumericRobust s 0).get? i = some 0 := by
    have hget : (toNumericRobust s 0).get? i
        = (s.vals.get? i).map (fun w =>
            if s.numericDtype then (match w with | Val.num q => q | _ => 0)
            else (valToNum? w).getD 0) := by
      by_cases hd : s.numericDtype <;>
        simp [toNumericRobust, hd, List.get?_eq_getElem?, List.getElem?_map]
    rw [hget, hv]
    rcases v with q | st | _
    · exact absurd hbad (by simp [valToNum?])
    · by_cases hd : s.numericDtype <;> simp [hd, hbad]
    · by_cases hd : s.numericDtype <;> simp [hd, hbad]
  refine ⟨toNumericRobust s 0, ?_, hq0, ?_, hmask⟩
  · rw [getCol_calculate_features_ne cfg _ (by decide) (by decide) (by decide) (by decide)]
    exact getCol_preprocess_days hcol
  · rw [hmask, List.get?_eq_getElem?, List.getElem?_map, ← List.get?_eq_getElem?, hq0]
    simp [hmd]

/-- C10 witness: one raw record with unparseable `Days of Inventory`
`"bad"`; after preprocessing the stored value is `0`, and with
`max_inventory_days = 90` the days mask passes the record. -/
theorem claim_C10_witness :
    ∃ qs : List ℚ,
      (calculate_features ⟨[], [], none, some 90, 10⟩
          (preprocess_data [("Days of Inventory", ⟨false, [Val.str "bad"]⟩)])).getCol
        "days_of_inventory" = some ⟨true, qs.map Val.num⟩
      ∧ qs.get? 0 = some 0
      ∧ (daysLeMask ⟨true, qs.map Val.num⟩ 90).get? 0 = some true
      ∧ (∀ (l : List ℚ) (md' : ℚ), daysLeMask ⟨true, l.map Val.num⟩ md'
          = l.map (fun q => decide (q ≤ md'))) :=
  claim_C10 ⟨[], [], none, some 90, 10⟩ [("Days of Inventory", ⟨false, [Val.str "bad"]⟩)]
    ⟨false, [Val.str "bad"]⟩ 0 (Val.str "bad") 90 (by decide) (by decide) (by decide) (by decide)

/-- C4: for every input frame and truncation, the output of `rank_products`
of size K carries rank values that are exactly the contiguous sequence
`1..K` (no gaps, no duplicates) and a score column that is non-increasing
along ascending rank order. -/
theorem claim_C4 (df : DF) (t : ℤ) :
    ∃ qs : List ℚ,
      (rank_products df t).getCol "score" = some ⟨true, qs.map Val.num⟩
      ∧ List.Chain' (fun a b => b ≤ a) qs
      ∧ (rank_products df t).getCol "rank"
          = some ⟨true, (List.range qs.length).map (fun i : ℕ => Val.num ((i : ℚ) + 1))⟩
      ∧ DF.nrows (rank_products df t) = qs.length := by
  simp only [rank_products]
  set scores := toNumericRobust ((df.getCol "score").getD emptyFloatCol) 0 with hscores
  set df1 := df.setCol "score" ⟨true, scores.map Val.num⟩ with hdf1
  set perm := argsortDesc scores with hperm
  set sorted := permuteRows df1 perm with hsorted
  set rc : Series := ⟨true, (List.range perm.length).map (fun i : ℕ => Val.num ((i : ℚ) + 1))⟩
    with hrc
  set ranked := sorted.setCol "rank" rc with hranked
  have hpermlen : perm.length = scores.length := by
    rw [hperm]; exact length_argsortDesc scores
  have hsortedlen :
      ((sortDesc (scores.zip (List.range scores.length))).map (fun p => p.1)).length
        = scores.length := by
    rw [List.length_map, length_sortDesc, List.length_zip, List.length_range, min_self]
  have hsc1 : ranked.getCol "score"
      = some ⟨true, perm.map (fun i => (scores.map Val.num).getD i Val.na)⟩ := by
    rw [hranked, getCol_setCol_ne _ _ (by decide : ("score" : String) ≠ "rank"),
      hsorted, getCol_permuteRows, hdf1, getCol_setCol_self]
    rfl
  have hsc2 : ranked.getCol "score" = some ⟨true,
      ((sortDesc (scores.zip (List.range scores.length))).map (fun p => p.1)).map
        Val.num⟩ := by
    rw [hsc1, hperm, sortDesc_score_map]
  have hrk1 : ranked.getCol "rank" = some rc := by
    rw [hranked, getCol_setCol_self]
  have hwfs : sorted.WF perm.length := by
    rw [hsorted]
    exact WF_permuteRows (by rw [hdf1]; exact setCol_ne_nil df "score" _) perm
  have hwfr : ranked.WF perm.length := by
    rw [hranked]
    exact WF_setCol hwfs (by rw [hrc]; simp)
  have hwfh : (headDF ranked t).WF (headLen t perm.length) := WF_headDF hwfr t
  refine ⟨headInt t ((sortDesc (scores.zip (List.range scores.length))).map (fun p => p.1)),
    ?_, ?_, ?_, ?_⟩
  · rw [getCol_headDF, hsc2, Option.map_some', headInt_map]
  · exact chain'_headInt (chain'_sortDesc_fst _) t
  · rw [getCol_headDF, hrk1, Option.map_some', hrc]
    have : headInt t ((List.range perm.length).map (fun i : ℕ => Val.num ((i : ℚ) + 1)))
        = (List.range (headLen t perm.length)).map (fun i : ℕ => Val.num ((i : ℚ) + 1)) := by
      rw [headInt_map, headInt_range]
    rw [this, length_headInt, hsortedlen, hpermlen]
  · rw [hwfh.1, length_headInt, hsortedlen, hpermlen]

/-- C5: `process` always returns a table whose columns are exactly
`Product Name, Brand, Price (USD), score, rank` in that order; an empty
input, or a record set emptied by the filter stage, yields an empty table
that still has those five columns.  The embedding of `process` is a total
function, so no input raises an error or returns a null result. -/
theorem claim_C5 (cfg : WeightsConfig) (df : DF) (t : Option ℤ) :
    (process cfg df t).colNames = ["Product Name", "Brand", "Price (USD)", "score", "rank"]
    ∧ (df.isEmpty = true → DF.nrows (process cfg df t) = 0)
    ∧ ((apply_filters cfg (calculate_features cfg (preprocess_data df))).isEmpty = true →
        DF.nrows (process cfg df t) = 0) := by
  by_cases h1 : df.isEmpty = true
  · have hp : process cfg df t = emptyOutput := by
      simp only [process]
      rw [if_pos h1]
    rw [hp]
    exact ⟨by decide, fun _ => by decide, fun _ => by decide⟩
  · by_cases h2 : (apply_filters cfg (calculate_features cfg (preprocess_data df))).isEmpty
        = true
    · have hp : process cfg df t = emptyOutput := by
        simp only [process]
        rw [if_neg h1, if_pos h2]
      rw [hp]
      exact ⟨by decide, fun _ => by decide, fun _ => by decide⟩
    · simp only [process]
      rw [if_neg h1, if_neg h2]
      exact ⟨rfl, fun h => absurd h h1, fun h => absurd h h2⟩

/-- Witness for C5: scoring an empty input table yields an empty output
table with the five canonical output columns present. -/
theorem claim_C5_witness :
    (process ⟨[], [], none, none, 10⟩ [] none).colNames
        = ["Product Name", "Brand", "Price (USD)", "score", "rank"]
    ∧ DF.nrows (process ⟨[], [], none, none, 10⟩ [] none) = 0 := by
  have h := claim_C5 ⟨[], [], none, none, 10⟩ [] none
  exact ⟨h.1, h.2.1 (by decide)⟩

/-- Counterexample for C2 as stated: with two records surviving the filter
and `top_n = -1`, the output has `1` row, not the `0` rows the claim demands
for a negative `top_n` — pandas `head(-1)` keeps all but the last row. -/
theorem claim_C2_counterexample :
    DF.nrows (process ⟨[], [], none, none, 10⟩
        [("Product Name", ⟨false, [Val.str "A", Val.str "B"]⟩)] (some (-1))) = 1
    ∧ ¬ (DF.nrows (process ⟨[], [], none, none, 10⟩
        [("Product Name", ⟨false, [Val.str "A", Val.str "B"]⟩)] (some (-1))) = 0) := by
  constructor <;> decide

/-- C2 (amended): for every record set and every integer `top_n`, the length
of the ranked output equals `min(top_n, K)` when `top_n >= 0`, and equals
`max(0, K - |top_n|)` when `top_n < 0` (pandas `head` semantics on a
negative count), where `K` is the number of records surviving the filter
stage; in particular an empty or fully-filtered input yields `0` rows. -/
theorem claim_C2_amended (cfg : WeightsConfig) (df : DF) (t : Option ℤ) (n : ℕ)
    (hwf : df.WF n) :
    DF.nrows (process cfg df t) = headLen (t.getD cfg.top_n_products) (survivors cfg df) := by
  have hpre : (preprocess_data df).WF n := WF_preprocess hwf
  have hfeat : (calculate_features cfg (preprocess_data df)).WF n :=
    WF_calculate_features hpre (hasCol_preprocess df (by decide))
      (hasCol_preprocess df (by decide)) (hasCol_preprocess df (by decide))
      (hasCol_preprocess df (by decide))
  obtain ⟨m, hmlen, hmeq⟩ := apply_filters_masked cfg hfeat
  have hx : (apply_filters cfg (calculate_features cfg (preprocess_data df))).WF
      (m.count true) := by
    rw [hmeq]
    exact WF_maskRows hfeat hmlen
  have hsurv : survivors cfg df = m.count true := hx.1
  by_cases h1 : df.isEmpty = true
  · have h0 : n = 0 := by rw [← hwf.1]; exact nrows_of_isEmpty h1
    have hm0 : m = [] := List.eq_nil_of_length_eq_zero (by rw [hmlen, h0])
    have hs0 : survivors cfg df = 0 := by rw [hsurv, hm0]; rfl
    rw [hs0, headLen_zero]
    simp only [process]
    rw [if_pos h1]
    rfl
  · by_cases h2 : (apply_filters cfg (calculate_features cfg (preprocess_data df))).isEmpty
        = true
    · have hs0 : survivors cfg df = 0 := nrows_of_isEmpty h2
      rw [hs0, headLen_zero]
      simp only [process]
      rw [if_neg h1, if_pos h2]
      rfl
    · have hwfnx : (normalize_features (apply_filters cfg (calculate_features cfg
          (preprocess_data df)))).WF (m.count true) := WF_normalize_features hx
      have hsccol := getCol_calculate_scores_score cfg
        (normalize_features (apply_filters cfg (calculate_features cfg (preprocess_data df))))
      have hsl := scoreFold_length
        (normalize_features (apply_filters cfg (calculate_features cfg (preprocess_data df))))
        (m.count true) (fun comp s h => getCol_length hwfnx h) cfg.scoring_weights
        (List.replicate (normalize_features (apply_filters cfg (calculate_features cfg
          (preprocess_data df)))).nrows (0 : ℚ)) (by simp [hwfnx.1])
      have hwfr := WF_rank_products hsccol hsl (t.getD cfg.top_n_products)
      have hpn1 : (calculate_features cfg (preprocess_data df)).hasCol "Product Name"
          = true :=
        hasCol_congr (getCol_calculate_features_ne cfg _ (by decide) (by decide)
          (by decide) (by decide)) (hasCol_preprocess df (by decide))
      have hpn2 : (apply_filters cfg (calculate_features cfg (preprocess_data df))).hasCol
          "Product Name" = true := by
        rw [hmeq]
        exact hasCol_maskRows m hpn1
      have hpn3 : (normalize_features (apply_filters cfg (calculate_features cfg
          (preprocess_data df)))).hasCol "Product Name" = true :=
        hasCol_congr (getCol_normalize_features_ne _ (by decide) (by decide) (by decide)
          (by decide)) hpn2
      have hpn4 : (calculate_scores cfg (normalize_features (apply_filters cfg
          (calculate_features cfg (preprocess_data df))))).hasCol "Product Name" = true :=
        hasCol_congr (getCol_calculate_scores_ne cfg _ (by decide)) hpn3
      have hpn5 := hasCol_rank_products (t.getD cfg.top_n_products) hpn4
      obtain ⟨spn, hspn⟩ := hasCol_exists hpn5
      have hlen := getCol_length hwfr hspn
      simp only [process]
      rw [if_neg h1, if_neg h2, hsurv]
      simp only [nrows]
      rw [hspn, Option.getD_some]
      exact hlen

/-- Witness for the amended C2: with no filters, two records and
`top_n = -1`, the output length is `K - 1 = 1`. -/
theorem claim_C2_amended_witness :
    (DF.nrows (process ⟨[], [], none, none, 10⟩
        [("Product Name", ⟨false, [Val.str "A", Val.str "B"]⟩)] (some (-1)))
      = headLen (-1) (survivors ⟨[], [], none, none, 10⟩
          [("Product Name", ⟨false, [Val.str "A", Val.str "B"]⟩)]))
    ∧ headLen (-1) (survivors ⟨[], [], none, none, 10⟩
        [("Product Name", ⟨false, [Val.str "A", Val.str "B"]⟩)]) = 1 := by
  refine ⟨claim_C2_amended ⟨[], [], none, none, 10⟩
    [("Product Name", ⟨false, [Val.str "A", Val.str "B"]⟩)] (some (-1)) 2
    ⟨by decide, by decide⟩, ?_⟩
  decide

end Claims

end SkinSeoul
